import Mathlib

/-!
Verification of the which-cmd node tree model, command composer, search
index and navigation-engine transitions, as a shallow embedding of the
Rust sources (src/node.rs, src/path.rs, src/config.rs, src/search.rs,
src/config_node.rs, src/tui.rs).

The repository contains two generations of the node type: `Node`
(src/node.rs, used by config.rs / path.rs / search.rs) and `ConfigNode`
(src/config_node.rs, used by src/tui.rs).  Both are embedded, each with
the behaviour of its own file.
-/

set_option maxHeartbeats 1000000

namespace WhichCmd

/-- src/constants.rs: CHOICE_KEY -/
def CHOICE_KEY : String := "[choice]"

/-- src/constants.rs: INPUT_KEY -/
def INPUT_KEY : String := "[input]"

/-- src/tui.rs / src/constants.rs: the tag prepended to immediate
commands (named IMMEDIATE_PREFIX in the source). -/
def IMMEDIATE_TAG : String := "__IMMEDIATE__"

/-- src/node.rs: InputType -/
inductive InputType where
  | Text : InputType
  | Number : InputType

/-- src/node.rs: Node.  A nested inductive: `keys` holds the child
nodes. -/
inductive Node where
  | mk (id key name value : String)
       (is_immediate is_fleeting is_anchor is_loop is_repeatable : Bool)
       (keys : List Node) (choices : List String)
       (input_type : Option InputType) : Node

def Node.id : Node → String
  | .mk i _ _ _ _ _ _ _ _ _ _ _ => i

def Node.key : Node → String
  | .mk _ k _ _ _ _ _ _ _ _ _ _ => k

def Node.name : Node → String
  | .mk _ _ n _ _ _ _ _ _ _ _ _ => n

def Node.value : Node → String
  | .mk _ _ _ v _ _ _ _ _ _ _ _ => v

def Node.is_immediate : Node → Bool
  | .mk _ _ _ _ b _ _ _ _ _ _ _ => b

def Node.is_fleeting : Node → Bool
  | .mk _ _ _ _ _ b _ _ _ _ _ _ => b

def Node.is_anchor : Node → Bool
  | .mk _ _ _ _ _ _ b _ _ _ _ _ => b

def Node.is_loop : Node → Bool
  | .mk _ _ _ _ _ _ _ b _ _ _ _ => b

def Node.is_repeatable : Node → Bool
  | .mk _ _ _ _ _ _ _ _ b _ _ _ => b

def Node.keys : Node → List Node
  | .mk _ _ _ _ _ _ _ _ _ ks _ _ => ks

def Node.choices : Node → List String
  | .mk _ _ _ _ _ _ _ _ _ _ cs _ => cs

def Node.input_type : Node → Option InputType
  | .mk _ _ _ _ _ _ _ _ _ _ _ it => it

/-- src/node.rs: Node::has_choices -/
def Node.has_choices (n : Node) : Bool := !n.choices.isEmpty

/-- src/node.rs: Node::is_leaf -/
def Node.is_leaf (n : Node) : Bool :=
  n.keys.isEmpty && !n.has_choices && n.input_type.isNone

/-- src/node.rs: Node::id_from_parent -/
def Node.id_from_parent (parent_id : String) (key : String) : String :=
  if !(parent_id.isEmpty) then parent_id ++ key else key

/-- src/node.rs: Node::with_selection.  `choices.get(choice)?` returns
None when the index is out of range, so the function is total and never
panics. -/
def Node.with_selection (n : Node) (choice : Nat) : Option Node :=
  (n.choices.get? choice).map fun selection =>
    Node.mk (Node.id_from_parent n.id CHOICE_KEY) CHOICE_KEY
      selection selection false false false false false [] [] none

/-- src/node.rs: Node::with_input -/
def Node.with_input (n : Node) (input : String) : Node :=
  Node.mk (Node.id_from_parent n.id input) INPUT_KEY
    input input false false false false false [] [] none

/-- src/path.rs: pop_to_first_non_is_fleeting.  The source pops
elements off the end of the vector while they are fleeting, pushing the
first non-fleeting element back; i.e. it removes the longest
all-fleeting suffix.  We model the vector end as the list end via
reversal. -/
def popRevAux : List Node → List Node
  | [] => []
  | n :: rest => if !n.is_fleeting then n :: rest else popRevAux rest

def pop_to_first_non_is_fleeting (path : List Node) : List Node :=
  (popRevAux path.reverse).reverse

/-- src/path.rs: compose_command.  The first loop computes the index of
the last anchor node (0 when there is none); the second joins the
values from that index on with single spaces. -/
def compose_command (path : List Node) : String :=
  let start_index :=
    path.enum.foldl (fun acc x => if x.2.is_anchor then x.1 else acc) 0
  String.intercalate " " ((path.drop start_index).map Node.value)

/-- src/error.rs: WhichCmdError (the variants that can arise from
Config::from_contents on an already-parsed tree). -/
inductive WhichCmdError where
  | ConfigNotFound (path : String)
  | ConflictingKeys (s : String)
  | ConfigParse (msg : String)
  | Terminal (msg : String)

/-- src/config.rs: Config::ensure_unique, inner loop.  `seen` collects
the keys already visited; the first key found again yields
ConflictingKeys(parent_id ++ key). -/
def ensureUniqueGo (parent_id : String) (seen : List String) :
    List String → Except WhichCmdError Unit
  | [] => .ok ()
  | k :: ks =>
    if seen.contains k then
      .error (.ConflictingKeys (parent_id ++ k))
    else ensureUniqueGo parent_id (k :: seen) ks

/-- src/config.rs: Config::ensure_unique -/
def ensure_unique (parent_id : String) (keys : List String) :
    Except WhichCmdError Unit :=
  ensureUniqueGo parent_id [] keys

mutual

/-- src/config.rs: the `set_id` closure inside Config::from_contents.
Sets the node id from the parent id, checks the children's keys for
duplicates, then recurses into the children. -/
def set_id (parent_id : String) : Node → Except WhichCmdError Node
  | .mk _ key name value imm fle anc lp rep keys choices it =>
    match ensure_unique (Node.id_from_parent parent_id key) (keys.map Node.key) with
    | .error e => .error e
    | .ok _ =>
      match set_id_list (Node.id_from_parent parent_id key) keys with
      | .error e => .error e
      | .ok ks =>
        .ok (.mk (Node.id_from_parent parent_id key) key name value
              imm fle anc lp rep ks choices it)

/-- The `for child in node.keys.iter_mut()` loop of `set_id`, and the
loop over the root nodes in Config::from_contents. -/
def set_id_list (parent_id : String) : List Node → Except WhichCmdError (List Node)
  | [] => .ok []
  | n :: ns =>
    match set_id parent_id n with
    | .error e => .error e
    | .ok n2 =>
      match set_id_list parent_id ns with
      | .error e => .error e
      | .ok ns2 => .ok (n2 :: ns2)

end

/-- src/config.rs: Config::from_contents, after serde_yaml parsing: the
root-level duplicate check followed by id assignment on every root. -/
def from_contents (keys : List Node) : Except WhichCmdError (List Node) :=
  match ensure_unique "" (keys.map Node.key) with
  | .error e => .error e
  | .ok _ => set_id_list "" keys

/-- src/node.rs: the NodeHelper struct produced by serde before the
custom Deserialize impl for Node runs.  `loopFlag` is the source's
raw `loop` field; `keys` holds the already-deserialized children. -/
structure NodeHelper where
  key : String
  name : Option String
  value : Option String
  immediate : Bool
  fleeting : Bool
  anchor : Bool
  loopFlag : Bool
  keys : List Node
  repeatable : Bool
  choices : List String
  input : Option InputType

/-- src/node.rs: the body of `impl Deserialize for Node` (lines 56-95),
from the helper to the finished node; errors are serde custom errors. -/
def Node.deserialize (helper : NodeHelper) : Except String Node :=
  let value := helper.value.getD ""
  let name := helper.name.getD value
  if name.isEmpty then
    .error "name must not be empty"
  else if ([!helper.choices.isEmpty, helper.input.isSome,
            !helper.keys.isEmpty].filter (fun x => x)).length > 1 then
    .error ("node must have only one of choices, input, or keys: " ++ name)
  else
    .ok (Node.mk "" helper.key name value
      helper.immediate
      (helper.fleeting || helper.input.isSome || !helper.choices.isEmpty)
      helper.anchor helper.loopFlag helper.repeatable
      helper.keys helper.choices helper.input)

/-- src/config_node.rs: ConfigNode, the older node type still used by
src/tui.rs. -/
inductive ConfigNode where
  | mk (id key name value : String)
       (is_immediate is_fleeting is_anchor is_loop is_repeatable : Bool)
       (keys : List ConfigNode) (choices : List String)
       (input_type : Option InputType) : ConfigNode

def ConfigNode.id : ConfigNode → String
  | .mk i _ _ _ _ _ _ _ _ _ _ _ => i

def ConfigNode.key : ConfigNode → String
  | .mk _ k _ _ _ _ _ _ _ _ _ _ => k

def ConfigNode.name : ConfigNode → String
  | .mk _ _ n _ _ _ _ _ _ _ _ _ => n

def ConfigNode.value : ConfigNode → String
  | .mk _ _ _ v _ _ _ _ _ _ _ _ => v

def ConfigNode.is_immediate : ConfigNode → Bool
  | .mk _ _ _ _ b _ _ _ _ _ _ _ => b

def ConfigNode.is_fleeting : ConfigNode → Bool
  | .mk _ _ _ _ _ b _ _ _ _ _ _ => b

def ConfigNode.is_anchor : ConfigNode → Bool
  | .mk _ _ _ _ _ _ b _ _ _ _ _ => b

def ConfigNode.is_loop : ConfigNode → Bool
  | .mk _ _ _ _ _ _ _ b _ _ _ _ => b

def ConfigNode.is_repeatable : ConfigNode → Bool
  | .mk _ _ _ _ _ _ _ _ b _ _ _ => b

def ConfigNode.keys : ConfigNode → List ConfigNode
  | .mk _ _ _ _ _ _ _ _ _ ks _ _ => ks

def ConfigNode.choices : ConfigNode → List String
  | .mk _ _ _ _ _ _ _ _ _ _ cs _ => cs

def ConfigNode.input_type : ConfigNode → Option InputType
  | .mk _ _ _ _ _ _ _ _ _ _ _ it => it

/-- src/config_node.rs: ConfigNode::has_choices -/
def ConfigNode.has_choices (n : ConfigNode) : Bool := !n.choices.isEmpty

/-- src/config_node.rs: ConfigNode::is_leaf -/
def ConfigNode.is_leaf (n : ConfigNode) : Bool :=
  n.keys.isEmpty && !n.has_choices && !n.input_type.isSome

/-- src/config_node.rs: the ConfigNodeHelper struct of its Deserialize
impl. -/
structure ConfigNodeHelper where
  key : String
  name : Option String
  value : Option String
  immediate : Bool
  fleeting : Bool
  anchor : Bool
  loopFlag : Bool
  keys : List ConfigNode
  repeatable : Bool
  choices : List String
  input : Option InputType

/-- src/config_node.rs: the body of `impl Deserialize for ConfigNode`
(lines 56-79).  Unlike the Node deserializer it keeps
`is_fleeting = helper.fleeting` with no implicit fleeting for
choices/input, and performs no single-action check. -/
def ConfigNode.deserialize (helper : ConfigNodeHelper) : Except String ConfigNode :=
  let value := helper.value.getD ""
  let name := helper.name.getD value
  if name.isEmpty then
    .error "name must not be empty"
  else
    .ok (ConfigNode.mk "" helper.key name value
      helper.immediate helper.fleeting helper.anchor helper.loopFlag
      helper.repeatable helper.keys helper.choices helper.input)

/-- src/tui.rs lines 351-364: the tui's own compose_command over
ConfigNode paths (same algorithm as src/path.rs). -/
def composeCommandCN (path : List ConfigNode) : String :=
  let start_index :=
    path.enum.foldl (fun acc x => if x.2.is_anchor then x.1 else acc) 0
  String.intercalate " " ((path.drop start_index).map ConfigNode.value)

/-- src/tui.rs lines 100-107: the tui's own pop_to_first_non_is_fleeting
over ConfigNode paths (same algorithm as src/path.rs). -/
def popRevAuxCN : List ConfigNode → List ConfigNode
  | [] => []
  | n :: rest => if !n.is_fleeting then n :: rest else popRevAuxCN rest

def popToFirstNonFleetingCN (path : List ConfigNode) : List ConfigNode :=
  (popRevAuxCN path.reverse).reverse

/-- src/tui.rs lines 185-191: derivation of the current menu inside
run_tui.  When a loop anchor index is set the menu is `path[l].keys`
(the engine keeps the index below the path length: it is set to
`path.len()-1` on push and cleared by Backspace when out of range, so
the `getD []` arm is unreachable there); otherwise the children of the
last path entry; otherwise the configured root list. -/
def currentNodes (configKeys : List ConfigNode) (path : List ConfigNode)
    (loop_node_index : Option Nat) : List ConfigNode :=
  match loop_node_index with
  | some l => ((path.get? l).map ConfigNode.keys).getD []
  | none =>
    match path.getLast? with
    | some last_node => last_node.keys
    | none => configKeys

/-- src/tui.rs lines 325-334: the KeyCode::Backspace arm of run_tui.
`path.pop()` removes the last entry when there is one; then trailing
fleeting entries are removed; then the loop anchor index is cleared when
it points at or beyond the new length. -/
def backtrack (path : List ConfigNode) (loop_node_index : Option Nat) :
    List ConfigNode × Option Nat :=
  if path.isEmpty then (path, loop_node_index)
  else
    let path2 := popToFirstNonFleetingCN path.dropLast
    let idx :=
      match loop_node_index with
      | some l => if path2.length ≤ l then none else some l
      | none => none
    (path2, idx)

/-- src/tui.rs lines 335-344: the KeyCode::Enter arm of run_tui.  The
source runs `path.last().unwrap()`, which panics when the path is
empty; the panic is modelled by the `none` result. -/
def enterConfirm (print_immediate_tag : Bool) (path : List ConfigNode) :
    Option String :=
  let command := composeCommandCN path
  (path.getLast?).map fun last_node =>
    if print_immediate_tag && last_node.is_immediate then
      IMMEDIATE_TAG ++ " " ++ command
    else command

/-- src/search.rs: SearchNode -/
structure SearchNode where
  id : String
  command : String
deriving DecidableEq

/-- src/search.rs lines 42-65: get_search_options_recursively.  The
source's flat_map over `nodes` is written as explicit recursion on the
list: each node contributes its own SearchNode (id, compose of
path-plus-node) followed, when it has children, by the recursive
entries of its children. -/
def get_search_options_recursively :
    List Node → List Node → List SearchNode
  | [], _ => []
  | .mk i k nm v imm fle anc lp rep ks cs it :: rest, path =>
    let node := Node.mk i k nm v imm fle anc lp rep ks cs it
    let new_path := path ++ [node]
    let command := compose_command new_path
    (SearchNode.mk node.id command ::
      (if !node.keys.isEmpty then
        get_search_options_recursively ks new_path
      else [])) ++
    get_search_options_recursively rest path

/-- src/search.rs lines 35-40: get_search_options; the flat_map over the
subtree roots, each recursed with the root as initial path. -/
def get_search_options : List Node → List SearchNode
  | [] => []
  | .mk i k nm v imm fle anc lp rep ks cs it :: rest =>
    let node := Node.mk i k nm v imm fle anc lp rep ks cs it
    get_search_options_recursively node.keys [node] ++
    get_search_options rest

/-- src/search.rs lines 22-33: format_single_search_option.  Rust's
`{:<length$}` left-aligns the command, padding on the right with spaces
up to `length` (no padding when already at least that long); then come
three literal spaces, then the id's characters joined by " > ". -/
def fmtLeftAlign (s : String) (w : Nat) : String :=
  s ++ String.mk (List.replicate (w - s.length) ' ')

def format_single_search_option (node : SearchNode) (command_length : Nat) :
    String :=
  fmtLeftAlign node.command command_length ++ "   " ++
    String.intercalate " > " (node.id.toList.map fun c => String.mk [c])

/-- src/search.rs lines 9-20: format_search_options; the longest
command length (0 for an empty list) is used as the pad width for every
entry. -/
def format_search_options (nodes : List SearchNode) : List String :=
  let longest_command := ((nodes.map (fun n => n.command.length)).max?).getD 0
  nodes.map (fun n => format_single_search_option n longest_command)

/-!  Spec-side definitions, written from the specification's wording,
for the refinement-style claims. -/

/-- Spec 4.3: the index of the last node in the path with
`anchor = true`, or 0 if none. -/
def lastAnchorIndexSpec (path : List Node) : Nat :=
  (((path.enum.filter fun x => x.2.is_anchor).map fun x => x.1).getLast?).getD 0

/-- Spec 4.3 index, for ConfigNode paths. -/
def lastAnchorIndexSpecCN (path : List ConfigNode) : Nat :=
  (((path.enum.filter fun x => x.2.is_anchor).map fun x => x.1).getLast?).getD 0

/-- Spec invariant for C2: a node's `id` is the concatenation,
root-to-self, of every ancestor's key followed by its own key;  `anc`
is the concatenation of the ancestors' keys. -/
inductive IdSpec : String → Node → Prop where
  | intro (anc id key name value : String)
      (b1 b2 b3 b4 b5 : Bool) (keys : List Node) (choices : List String)
      (it : Option InputType)
      (hid : id = anc ++ key)
      (hkeys : ∀ c ∈ keys, IdSpec (anc ++ key) c) :
      IdSpec anc (.mk id key name value b1 b2 b3 b4 b5 keys choices it)

mutual

/-- Spec 4.1 for C6: every sibling group of a tree, as (parent identity,
keys of the group) pairs; the parent identity is the concatenation of
keys from the root. -/
def groups : String → Node → List (String × List String)
  | anc, .mk _ key _ _ _ _ _ _ _ keys _ _ =>
    (anc ++ key, keys.map Node.key) :: groupsList (anc ++ key) keys

def groupsList : String → List Node → List (String × List String)
  | _, [] => []
  | anc, n :: ns => groups anc n ++ groupsList anc ns

end

/-- All sibling groups of a forest, the root list (whose parent identity
is empty) included. -/
def allGroups (roots : List Node) : List (String × List String) :=
  ("", roots.map Node.key) :: groupsList "" roots

/-- Spec 4.4 for C8: the strict descendants of the given subtree roots
in pre-order, each paired with its root-to-descendant path. -/
def preorderDescendants (p : List Node) : List Node → List (List Node × Node)
  | [] => []
  | .mk i k nm v imm fle anc lp rep ks cs it :: rest =>
    let node := Node.mk i k nm v imm fle anc lp rep ks cs it
    (p ++ [node], node) ::
      (preorderDescendants (p ++ [node]) ks ++ preorderDescendants p rest)

/-- Spec 4.4 for C8: one (identity, command) entry per strict
descendant of the subtree roots, in pre-order, with
`command = compose(path-to-that-descendant)`. -/
def specFlatten : List Node → List SearchNode
  | [] => []
  | r :: rest =>
    (preorderDescendants [r] r.keys).map
      (fun x => SearchNode.mk x.2.id (compose_command x.1)) ++
    specFlatten rest

/-- Spec 4.4 for C9, claim reading: a string left-PADDED (spaces on the
left) to width `w`. -/
def padLeftStr (s : String) (w : Nat) : String :=
  String.mk (List.replicate (w - s.length) ' ') ++ s

/-!  Helper lemmas. -/

/-- getD of getLast? shifts through a cons. -/
theorem getLastD_cons {α : Type} (xs : List α) :
    ∀ (a d : α), ((a :: xs).getLast?).getD d = (xs.getLast?).getD a := by
  induction xs with
  | nil => intro a d; rfl
  | cons b xs ih =>
    intro a d
    rw [List.getLast?_cons_cons, ih b d, ih b a]

/-- The source's "last index satisfying f, else default" fold equals the
getLast? of the filtered indices. -/
theorem foldl_pick_last {α : Type} (f : α → Bool) :
    ∀ (l : List (Nat × α)) (d : Nat),
      l.foldl (fun acc x => if f x.2 then x.1 else acc) d =
      (((l.filter fun x => f x.2).map fun x => x.1).getLast?).getD d := by
  intro l
  induction l with
  | nil => intro d; rfl
  | cons a l ih =>
    intro d
    by_cases hf : f a.2
    · simp only [List.foldl_cons, List.filter_cons, hf, if_pos, List.map_cons]
      rw [ih a.1, getLastD_cons]
    · simp only [List.foldl_cons, List.filter_cons, hf, List.map_cons]
      simp only [Bool.false_eq_true, if_false, ih d]

/-- The example nodes of the spec's compose example. -/
def gitNode : Node :=
  .mk "g" "g" "git" "git" false false false false false [] [] none

def ghNode : Node :=
  .mk "h" "h" "GitHub" "gh" false false true false false [] [] none

def prNode : Node :=
  .mk "p" "p" "pull request" "pr" false false false false false [] [] none

/-- C1: for every path, compose_command equals the value fields of
path[i..] joined by a single space, where i is the index of the last
anchor node (0 when none); the tui's own copy over ConfigNode behaves
the same way; compose of the empty path is "", and compose of
[git(no anchor), gh(anchor), pr(no anchor)] is "gh pr". -/
theorem compose_command_spec :
    (∀ path : List Node,
      compose_command path =
        String.intercalate " "
          ((path.drop (lastAnchorIndexSpec path)).map Node.value)) ∧
    (∀ path : List ConfigNode,
      composeCommandCN path =
        String.intercalate " "
          ((path.drop (lastAnchorIndexSpecCN path)).map ConfigNode.value)) ∧
    compose_command [] = "" ∧
    compose_command [gitNode, ghNode, prNode] = "gh pr" := by
  refine ⟨fun path => ?_, fun path => ?_, rfl, by decide⟩
  · unfold compose_command lastAnchorIndexSpec
    rw [foldl_pick_last]
  · unfold composeCommandCN lastAnchorIndexSpecCN
    rw [foldl_pick_last]

/-- id_from_parent is plain string concatenation: when the parent id is
empty the two branches agree. -/
theorem id_from_parent_eq (p k : String) : Node.id_from_parent p k = p ++ k := by
  unfold Node.id_from_parent
  by_cases h : p.isEmpty = true
  · have hp : p = "" := (String.isEmpty_iff p).mp h
    subst hp
    rfl
  · simp only [Bool.not_eq_true] at h
    rw [h]
    rfl

mutual

theorem set_id_idspec : ∀ (anc : String) (n m : Node),
    set_id anc n = .ok m → IdSpec anc m
  | anc, .mk i key nm v b1 b2 b3 b4 b5 ks cs it, m => fun h => by
    unfold set_id at h
    cases h1 : ensure_unique (Node.id_from_parent anc key) (ks.map Node.key) with
    | error e => rw [h1] at h; exact absurd h (by simp)
    | ok u =>
      rw [h1] at h
      cases h2 : set_id_list (Node.id_from_parent anc key) ks with
      | error e => rw [h2] at h; exact absurd h (by simp)
      | ok ks2 =>
        rw [h2] at h
        simp only [Except.ok.injEq] at h
        subst h
        refine IdSpec.intro anc _ key nm v b1 b2 b3 b4 b5 ks2 cs it
          (id_from_parent_eq anc key) ?_
        intro c hc
        have := set_id_list_idspec (Node.id_from_parent anc key) ks ks2 h2 c hc
        rwa [id_from_parent_eq] at this

theorem set_id_list_idspec : ∀ (anc : String) (ns ms : List Node),
    set_id_list anc ns = .ok ms → ∀ x ∈ ms, IdSpec anc x
  | anc, [], ms => fun h x hx => by
    unfold set_id_list at h
    simp only [Except.ok.injEq] at h
    subst h
    exact absurd hx (by simp)
  | anc, n :: ns, ms => fun h x hx => by
    unfold set_id_list at h
    cases h1 : set_id anc n with
    | error e => rw [h1] at h; exact absurd h (by simp)
    | ok n2 =>
      rw [h1] at h
      cases h2 : set_id_list anc ns with
      | error e => rw [h2] at h; exact absurd h (by simp)
      | ok ns2 =>
        rw [h2] at h
        simp only [Except.ok.injEq] at h
        subst h
        rcases List.mem_cons.mp hx with hx | hx
        · subst hx
          exact set_id_idspec anc n x h1
        · exact set_id_list_idspec anc ns ns2 h2 x hx

end

/-- C2: every tree accepted by Config::from_contents has, for every
node at any depth, an id equal to the concatenation of the keys from
the root down to that node. -/
theorem from_contents_ids : ∀ (raw out : List Node),
    from_contents raw = .ok out → ∀ n ∈ out, IdSpec "" n := by
  intro raw out h n hn
  unfold from_contents at h
  cases h1 : ensure_unique "" (raw.map Node.key) with
  | error e => rw [h1] at h; exact absurd h (by simp)
  | ok u =>
    rw [h1] at h
    exact set_id_list_idspec "" raw out h n hn

/-- A small concrete configuration: g → s, as in the spec's end-to-end
example. -/
def rawDemo : List Node :=
  [.mk "" "g" "git" "git" false false false false false
    [.mk "" "s" "status" "status" false false false false false [] [] none]
    [] none]

def outDemo : Node :=
  .mk "g" "g" "git" "git" false false false false false
    [.mk "gs" "s" "status" "status" false false false false false [] [] none]
    [] none

/-- Witness for C2 at the concrete g → s configuration. -/
theorem from_contents_ids_witness :
    from_contents rawDemo = .ok [outDemo] ∧ IdSpec "" outDemo :=
  ⟨rfl, from_contents_ids rawDemo [outDemo] rfl outDemo
    (List.mem_singleton.mpr rfl)⟩

/-- The ensure_unique loop succeeds exactly when the keys are pairwise
distinct and none of them was already seen. -/
theorem ensureUniqueGo_ok_iff (pid : String) :
    ∀ (ks seen : List String),
      ensureUniqueGo pid seen ks = .ok () ↔
        ks.Nodup ∧ ∀ k ∈ ks, k ∉ seen := by
  intro ks
  induction ks with
  | nil => intro seen; simp [ensureUniqueGo]
  | cons k ks ih =>
    intro seen
    by_cases hc : seen.contains k = true
    · have hk : k ∈ seen := by simpa [List.contains] using hc
      have hstep : ensureUniqueGo pid seen (k :: ks) =
          .error (.ConflictingKeys (pid ++ k)) := by
        simp [ensureUniqueGo, hk]
      rw [hstep]
      constructor
      · intro h; exact absurd h (by simp)
      · rintro ⟨_, hall⟩
        exact absurd hk (hall k (List.mem_cons_self k ks))
    · have hkseen : k ∉ seen := by
        intro hmem
        exact hc (by simpa [List.contains] using hmem)
      have hstep : ensureUniqueGo pid seen (k :: ks) =
          ensureUniqueGo pid (k :: seen) ks := by
        simp [ensureUniqueGo, hkseen]
      rw [hstep, ih (k :: seen)]
      constructor
      · rintro ⟨hnd, hall⟩
        refine ⟨List.nodup_cons.mpr
          ⟨fun hk2 => (hall k hk2) (List.mem_cons_self k seen), hnd⟩, ?_⟩
        intro x hx
        rcases List.mem_cons.mp hx with hx | hx
        · subst hx; exact hkseen
        · intro hxs; exact (hall x hx) (List.mem_cons_of_mem k hxs)
      · rintro ⟨hnd, hall⟩
        have hnd2 := List.nodup_cons.mp hnd
        refine ⟨hnd2.2, ?_⟩
        intro x hx hmem
        rcases List.mem_cons.mp hmem with hxk | hxs
        · subst hxk; exact hnd2.1 hx
        · exact (hall x (List.mem_cons_of_mem k hx)) hxs

/-- When the ensure_unique loop fails, the error is ConflictingKeys of
the parent id concatenated with a key that is duplicated (or was
already seen). -/
theorem ensureUniqueGo_error (pid : String) :
    ∀ (ks seen : List String) (e : WhichCmdError),
      ensureUniqueGo pid seen ks = .error e →
      ∃ k, k ∈ ks ∧ e = .ConflictingKeys (pid ++ k) ∧
        (k ∈ seen ∨ 2 ≤ ks.count k) := by
  intro ks
  induction ks with
  | nil => intro seen e h; exact absurd h (by simp [ensureUniqueGo])
  | cons k ks ih =>
    intro seen e h
    by_cases hc : seen.contains k = true
    · have hk : k ∈ seen := by simpa [List.contains] using hc
      have hstep : ensureUniqueGo pid seen (k :: ks) =
          .error (.ConflictingKeys (pid ++ k)) := by
        simp [ensureUniqueGo, hk]
      rw [hstep] at h
      simp only [Except.error.injEq] at h
      exact ⟨k, List.mem_cons_self k ks, h.symm, Or.inl hk⟩
    · have hkseen : k ∉ seen := by
        intro hmem
        exact hc (by simpa [List.contains] using hmem)
      have hstep : ensureUniqueGo pid seen (k :: ks) =
          ensureUniqueGo pid (k :: seen) ks := by
        simp [ensureUniqueGo, hkseen]
      rw [hstep] at h
      obtain ⟨x, hxmem, he, hcase⟩ := ih (k :: seen) e h
      refine ⟨x, List.mem_cons_of_mem k hxmem, he, ?_⟩
      rcases hcase with hx | hx
      · rcases List.mem_cons.mp hx with hx | hx
        · subst hx
          right
          have hpos : 0 < ks.count x := List.count_pos_iff.mpr hxmem
          have : (x :: ks).count x = ks.count x + 1 := List.count_cons_self x ks
          omega
        · exact Or.inl hx
      · right
        have hmono : ks.count x ≤ (k :: ks).count x := by
          rw [List.count_cons]
          omega
        omega

/-- ensure_unique succeeds exactly when the keys are pairwise distinct. -/
theorem ensure_unique_ok_iff (pid : String) (ks : List String) :
    ensure_unique pid ks = .ok () ↔ ks.Nodup := by
  unfold ensure_unique
  rw [ensureUniqueGo_ok_iff]
  simp

/-- A failing ensure_unique yields ConflictingKeys of pid ++ k for a key
k occurring at least twice. -/
theorem ensure_unique_error (pid : String) (ks : List String)
    (e : WhichCmdError) (h : ensure_unique pid ks = .error e) :
    ∃ k, k ∈ ks ∧ e = .ConflictingKeys (pid ++ k) ∧ 2 ≤ ks.count k := by
  obtain ⟨k, hmem, he, hcase⟩ := ensureUniqueGo_error pid ks [] e h
  refine ⟨k, hmem, he, ?_⟩
  rcases hcase with hx | hx
  · exact absurd hx (List.not_mem_nil k)
  · exact hx

mutual

theorem set_id_groups : ∀ (anc : String) (n : Node),
    (∃ m, set_id anc n = .ok m ∧ ∀ g ∈ groups anc n, g.2.Nodup) ∨
    (∃ g ∈ groups anc n, ∃ k, 2 ≤ g.2.count k ∧
       set_id anc n = .error (.ConflictingKeys (g.1 ++ k)))
  | anc, .mk i key nm v b1 b2 b3 b4 b5 ks cs it => by
    have hs : set_id anc (Node.mk i key nm v b1 b2 b3 b4 b5 ks cs it) =
        (match ensure_unique (anc ++ key) (ks.map Node.key) with
         | .error e => .error e
         | .ok _ =>
           match set_id_list (anc ++ key) ks with
           | .error e => .error e
           | .ok ks2 =>
             .ok (.mk (anc ++ key) key nm v b1 b2 b3 b4 b5 ks2 cs it)) := by
      simp only [set_id, id_from_parent_eq]
    cases h1 : ensure_unique (anc ++ key) (ks.map Node.key) with
    | error e =>
      obtain ⟨k, _, he, hcount⟩ :=
        ensure_unique_error (anc ++ key) (ks.map Node.key) e h1
      right
      refine ⟨(anc ++ key, ks.map Node.key), by simp [groups], k, hcount, ?_⟩
      rw [hs, h1, he]
    | ok u =>
      cases u
      have hnd1 : (ks.map Node.key).Nodup :=
        (ensure_unique_ok_iff (anc ++ key) (ks.map Node.key)).mp h1
      rcases set_id_list_groups (anc ++ key) ks with
        ⟨ms, hok, hnd⟩ | ⟨g, hg, k, hc, herr⟩
      · left
        refine ⟨.mk (anc ++ key) key nm v b1 b2 b3 b4 b5 ms cs it, ?_, ?_⟩
        · rw [hs, h1, hok]
        · intro g hg
          simp only [groups, List.mem_cons] at hg
          rcases hg with hg | hg
          · subst hg; exact hnd1
          · exact hnd g hg
      · right
        refine ⟨g, ?_, k, hc, ?_⟩
        · simp only [groups, List.mem_cons]
          exact Or.inr hg
        · rw [hs, h1, herr]

theorem set_id_list_groups : ∀ (anc : String) (ns : List Node),
    (∃ ms, set_id_list anc ns = .ok ms ∧
       ∀ g ∈ groupsList anc ns, g.2.Nodup) ∨
    (∃ g ∈ groupsList anc ns, ∃ k, 2 ≤ g.2.count k ∧
       set_id_list anc ns = .error (.ConflictingKeys (g.1 ++ k)))
  | anc, [] => by
    left
    exact ⟨[], rfl, by simp [groupsList]⟩
  | anc, n :: ns => by
    rcases set_id_groups anc n with ⟨m, hok, hnd⟩ | ⟨g, hg, k, hc, herr⟩
    · rcases set_id_list_groups anc ns with
        ⟨ms, hok2, hnd2⟩ | ⟨g, hg, k, hc, herr⟩
      · left
        refine ⟨m :: ms, ?_, ?_⟩
        · unfold set_id_list
          rw [hok, hok2]
        · intro g hg
          simp only [groupsList, List.mem_append] at hg
          rcases hg with hg | hg
          · exact hnd g hg
          · exact hnd2 g hg
      · right
        refine ⟨g, ?_, k, hc, ?_⟩
        · simp only [groupsList, List.mem_append]
          exact Or.inr hg
        · unfold set_id_list
          rw [hok, herr]
    · right
      refine ⟨g, ?_, k, hc, ?_⟩
      · simp only [groupsList, List.mem_append]
        exact Or.inl hg
      · unfold set_id_list
        rw [herr]

end

/-- from_contents either succeeds with every sibling group duplicate
free, or fails with ConflictingKeys of a duplicated key's full identity
path. -/
theorem from_contents_groups (roots : List Node) :
    (∃ out, from_contents roots = .ok out ∧
       ∀ g ∈ allGroups roots, g.2.Nodup) ∨
    (∃ g ∈ allGroups roots, ∃ k, 2 ≤ g.2.count k ∧
       from_contents roots = .error (.ConflictingKeys (g.1 ++ k))) := by
  cases h1 : ensure_unique "" (roots.map Node.key) with
  | error e =>
    obtain ⟨k, _, he, hcount⟩ :=
      ensure_unique_error "" (roots.map Node.key) e h1
    right
    refine ⟨("", roots.map Node.key), by simp [allGroups], k, hcount, ?_⟩
    unfold from_contents
    rw [h1, he]
  | ok u =>
    cases u
    have hnd1 : (roots.map Node.key).Nodup :=
      (ensure_unique_ok_iff "" (roots.map Node.key)).mp h1
    rcases set_id_list_groups "" roots with
      ⟨ms, hok, hnd⟩ | ⟨g, hg, k, hc, herr⟩
    · left
      refine ⟨ms, ?_, ?_⟩
      · unfold from_contents
        rw [h1, hok]
      · intro g hg
        simp only [allGroups, List.mem_cons] at hg
        rcases hg with hg | hg
        · subst hg; exact hnd1
        · exact hnd g hg
    · right
      refine ⟨g, ?_, k, hc, ?_⟩
      · simp only [allGroups, List.mem_cons]
        exact Or.inr hg
      · unfold from_contents
        rw [h1, herr]

/-- C6: a configuration containing a duplicated sibling key (at any
level, the root list included) fails to load, with a ConflictingKeys
error whose payload is the full identity of the duplicated key (parent
identity concatenated with the key); and a configuration that loads has
pairwise-distinct keys in every sibling group. -/
theorem conflicting_keys_on_duplicate (roots : List Node) :
    ((∃ g ∈ allGroups roots, ¬ g.2.Nodup) →
      ∃ e, from_contents roots = .error e ∧
        ∃ g ∈ allGroups roots, ∃ k, 2 ≤ g.2.count k ∧
          e = .ConflictingKeys (g.1 ++ k)) ∧
    (∀ out, from_contents roots = .ok out →
      ∀ g ∈ allGroups roots, g.2.Nodup) := by
  constructor
  · intro hdup
    rcases from_contents_groups roots with ⟨out, _, hnd⟩ | ⟨g, hg, k, hc, herr⟩
    · obtain ⟨g, hg, hbad⟩ := hdup
      exact absurd (hnd g hg) hbad
    · exact ⟨.ConflictingKeys (g.1 ++ k), herr, g, hg, k, hc, rfl⟩
  · intro out h
    rcases from_contents_groups roots with ⟨out2, hok, hnd⟩ | ⟨g, hg, k, hc, herr⟩
    · exact hnd
    · rw [h] at herr
      exact absurd herr (by simp)

/-- The duplicate-key configuration of the spec's test list: two root
siblings with key "s". -/
def dupRoots : List Node :=
  [.mk "" "s" "status" "status" false false false false false [] [] none,
   .mk "" "s" "stash" "stash" false false false false false [] [] none]

/-- Witness for C6: the duplicate configuration indeed fails with a
ConflictingKeys error of the duplicated key's identity. -/
theorem conflicting_keys_on_duplicate_witness :
    (∃ g ∈ allGroups dupRoots, ¬ g.2.Nodup) ∧
    ∃ e, from_contents dupRoots = .error e ∧
      ∃ g ∈ allGroups dupRoots, ∃ k, 2 ≤ g.2.count k ∧
        e = .ConflictingKeys (g.1 ++ k) :=
  ⟨by decide, (conflicting_keys_on_duplicate dupRoots).1 (by decide)⟩

/-!  C3 / C4 / C5 / C7: navigation-engine transitions over ConfigNode,
as implemented by src/tui.rs. -/

/-- The tui pop helper leaves either an empty list or a non-fleeting
head of the reversed remainder. -/
theorem popRevAuxCN_shape : ∀ l : List ConfigNode,
    popRevAuxCN l = [] ∨
      ∃ n rest, popRevAuxCN l = n :: rest ∧ n.is_fleeting = false := by
  intro l
  induction l with
  | nil => exact Or.inl rfl
  | cons n rest ih =>
    cases hb : n.is_fleeting with
    | false =>
      right
      exact ⟨n, rest, by simp [popRevAuxCN, hb], hb⟩
    | true =>
      have hstep : popRevAuxCN (n :: rest) = popRevAuxCN rest := by
        simp [popRevAuxCN, hb]
      rw [hstep]
      exact ih

/-- The tui pop helper empties an all-fleeting list. -/
theorem popRevAuxCN_all_fleeting : ∀ l : List ConfigNode,
    (∀ n ∈ l, n.is_fleeting = true) → popRevAuxCN l = [] := by
  intro l
  induction l with
  | nil => intro _; rfl
  | cons n rest ih =>
    intro hall
    have hn : n.is_fleeting = true := hall n (List.mem_cons_self n rest)
    have hstep : popRevAuxCN (n :: rest) = popRevAuxCN rest := by
      simp [popRevAuxCN, hn]
    rw [hstep]
    exact ih fun x hx => hall x (List.mem_cons_of_mem n hx)

/-- After the pop helper runs, the path is empty or its tail is not
fleeting. -/
theorem popToFirstNonFleetingCN_tail (p : List ConfigNode) :
    popToFirstNonFleetingCN p = [] ∨
      ∃ n, (popToFirstNonFleetingCN p).getLast? = some n ∧
        n.is_fleeting = false := by
  unfold popToFirstNonFleetingCN
  rcases popRevAuxCN_shape p.reverse with h | ⟨n, rest, h, hnf⟩
  · left; rw [h]; rfl
  · right
    refine ⟨n, ?_, hnf⟩
    rw [h, List.getLast?_reverse]
    rfl

/-- C5: the Backtrack transition always yields a path that is empty or
whose tail is not fleeting; when a pop happened, a surviving loop
anchor index points strictly inside the shrunk path; and backtracking a
non-empty all-fleeting path empties it (so repeated backtracking of an
all-fleeting path empties it). -/
theorem backtrack_spec : ∀ (path : List ConfigNode) (idx : Option Nat),
    ((backtrack path idx).1 = [] ∨
      ∃ n, ((backtrack path idx).1).getLast? = some n ∧
        n.is_fleeting = false) ∧
    (path ≠ [] → ∀ l, (backtrack path idx).2 = some l →
      l < (backtrack path idx).1.length) ∧
    ((path ≠ [] ∧ ∀ n ∈ path, n.is_fleeting = true) →
      (backtrack path idx).1 = []) := by
  intro path idx
  cases path with
  | nil =>
    refine ⟨Or.inl rfl, ?_, ?_⟩
    · intro h; exact absurd rfl h
    · rintro ⟨h, _⟩; exact absurd rfl h
  | cons p0 ps =>
    have hne : (p0 :: ps).isEmpty = false := rfl
    have hbt : backtrack (p0 :: ps) idx =
        (popToFirstNonFleetingCN (p0 :: ps).dropLast,
         match idx with
         | some l =>
           if (popToFirstNonFleetingCN (p0 :: ps).dropLast).length ≤ l
           then none else some l
         | none => none) := by
      simp [backtrack]
    rw [hbt]
    dsimp only
    refine ⟨popToFirstNonFleetingCN_tail _, ?_, ?_⟩
    · intro _ l hl
      cases idx with
      | none => exact absurd hl (by simp)
      | some l0 =>
        simp only at hl
        by_cases hle :
            (popToFirstNonFleetingCN (p0 :: ps).dropLast).length ≤ l0
        · rw [if_pos hle] at hl
          exact absurd hl (by simp)
        · rw [if_neg hle] at hl
          simp only [Option.some.injEq] at hl
          subst hl
          omega
    · rintro ⟨_, hall⟩
      unfold popToFirstNonFleetingCN
      rw [popRevAuxCN_all_fleeting]
      · rfl
      · intro n hn
        rw [List.mem_reverse] at hn
        exact hall n (List.dropLast_subset _ hn)

/-- A concrete fleeting node. -/
def fleetNode : ConfigNode :=
  .mk "f" "f" "F" "f" false true false false false [] [] none

/-- Witness for C5: backtracking the all-fleeting path [fleetNode]
empties it. -/
theorem backtrack_spec_witness :
    (([fleetNode] : List ConfigNode) ≠ [] ∧
      ∀ n ∈ ([fleetNode] : List ConfigNode), n.is_fleeting = true) ∧
    (backtrack [fleetNode] none).1 = [] :=
  ⟨⟨by simp, by decide⟩,
    (backtrack_spec [fleetNode] none).2.2 ⟨by simp, by decide⟩⟩

/-- The loop node A of the spec's loop scenario, with children B
(repeatable) and C (not repeatable), both leaves. -/
def cnB : ConfigNode :=
  .mk "ab" "b" "B" "--b" false false false false true [] [] none

def cnC : ConfigNode :=
  .mk "ac" "c" "C" "--c" false false false false false [] [] none

def cnA : ConfigNode :=
  .mk "a" "a" "A" "a" false false false true false [cnB, cnC] [] none

/-- C3 counterexample: with the loop anchor on A, the derived menu after
path [A,B,C] still offers both B and C — the non-repeatable,
already-chosen child C is not excluded. -/
theorem currentNodes_no_filter_counterexample :
    (currentNodes [cnA] [cnA, cnB, cnC] (some 0)).map ConfigNode.key =
      ["b", "c"] ∧
    cnB.is_repeatable = true ∧ cnC.is_repeatable = false :=
  ⟨rfl, rfl, rfl⟩

/-- C3 amended: whenever the loop anchor index is set (and in range, as
the engine keeps it), the current menu is all children of the
loop-anchor node, with no exclusion of children already in the path; in
the A/B/C loop scenario the menu after [A,B] and after [A,B,C] is
[B, C] both times. -/
theorem currentNodes_loop_anchor :
    (∀ (roots path : List ConfigNode) (l : Nat) (h : l < path.length),
      currentNodes roots path (some l) = (path.get ⟨l, h⟩).keys) ∧
    (currentNodes [cnA] [cnA, cnB] (some 0)).map ConfigNode.key =
      ["b", "c"] ∧
    (currentNodes [cnA] [cnA, cnB, cnC] (some 0)).map ConfigNode.key =
      ["b", "c"] := by
  refine ⟨?_, rfl, rfl⟩
  intro roots path l h
  unfold currentNodes
  dsimp only
  rw [List.get?_eq_get h]
  rfl

/-- Witness for C3's amended theorem at the concrete loop scenario. -/
theorem currentNodes_loop_anchor_witness :
    0 < ([cnA, cnB] : List ConfigNode).length ∧
    currentNodes [cnA] [cnA, cnB] (some 0) = cnA.keys :=
  ⟨by simp, currentNodes_loop_anchor.1 [cnA] [cnA, cnB] 0 (by simp)⟩

/-- C4: the Enter arm of run_tui at the failing input.  With an empty
path `path.last().unwrap()` panics (modelled by `none`): there is no
"nothing to confirm" notice and no unchanged-state continuation. -/
theorem enterConfirm_empty_path_panics :
    enterConfirm true ([] : List ConfigNode) = none ∧
    enterConfirm false ([] : List ConfigNode) = none :=
  ⟨rfl, rfl⟩

/-- A choice-bearing helper record with the fleeting flag unset, as
parsed by the ConfigNode deserializer. -/
def cfgHelperDemo : ConfigNodeHelper :=
  { key := "x", name := none, value := some "xv",
    immediate := false, fleeting := false, anchor := false,
    loopFlag := false, keys := [], repeatable := false,
    choices := ["one", "two"], input := none }

/-- C7 counterexample: the ConfigNode deserializer (src/config_node.rs,
used by src/tui.rs) loads a node with non-empty choices and an unset
fleeting flag as is_fleeting = false. -/
theorem configNode_deserialize_not_fleeting :
    (ConfigNode.deserialize cfgHelperDemo).map ConfigNode.is_fleeting =
      .ok false ∧
    (ConfigNode.deserialize cfgHelperDemo).map ConfigNode.has_choices =
      .ok true :=
  ⟨rfl, rfl⟩

/-- C7 amended: every node loaded by the Node deserializer
(src/node.rs) with non-empty choices or an input request has
is_fleeting = true, even when the fleeting flag was not set; the
ConfigNode deserializer keeps only the explicit flag. -/
theorem node_deserialize_fleeting :
    ∀ (helper : NodeHelper) (n : Node),
      Node.deserialize helper = .ok n →
      (n.has_choices = true ∨ n.input_type.isSome = true) →
      n.is_fleeting = true := by
  intro helper n h hca
  unfold Node.deserialize at h
  by_cases h1 : (helper.name.getD (helper.value.getD "")).isEmpty = true
  · rw [if_pos h1] at h
    exact absurd h (by simp)
  · rw [if_neg h1] at h
    by_cases h2 : ([!helper.choices.isEmpty, helper.input.isSome,
        !helper.keys.isEmpty].filter (fun x => x)).length > 1
    · rw [if_pos h2] at h
      exact absurd h (by simp)
    · rw [if_neg h2] at h
      simp only [Except.ok.injEq] at h
      subst h
      simp only [Node.has_choices, Node.choices, Node.input_type,
        Node.is_fleeting] at hca ⊢
      rcases hca with hc | hc
      · simp [hc]
      · simp [hc]

/-- A choice-bearing helper record with the fleeting flag unset, for
the Node deserializer. -/
def nodeHelperDemo : NodeHelper :=
  { key := "x", name := none, value := some "xv",
    immediate := false, fleeting := false, anchor := false,
    loopFlag := false, keys := [], repeatable := false,
    choices := ["one", "two"], input := none }

def nodeDemoLoaded : Node :=
  .mk "" "x" "xv" "xv" false true false false false [] ["one", "two"] none

/-- Witness for C7's amended theorem: the Node deserializer marks the
choice-bearing record fleeting. -/
theorem node_deserialize_fleeting_witness :
    Node.deserialize nodeHelperDemo = .ok nodeDemoLoaded ∧
    nodeDemoLoaded.is_fleeting = true :=
  ⟨rfl, node_deserialize_fleeting nodeHelperDemo nodeDemoLoaded rfl
    (Or.inl rfl)⟩

/-!  C8: the search index flattening refines the spec's pre-order
descendant enumeration. -/

theorem gsor_eq : ∀ (ns p : List Node),
    get_search_options_recursively ns p =
      (preorderDescendants p ns).map
        (fun x => SearchNode.mk x.2.id (compose_command x.1))
  | [], p => by
    simp [get_search_options_recursively, preorderDescendants]
  | .mk i k nm v imm fle anc lp rep ks cs it :: rest, p => by
    have ih1 := gsor_eq ks
      (p ++ [Node.mk i k nm v imm fle anc lp rep ks cs it])
    have ih2 := gsor_eq rest p
    have hbranch :
        (if !(Node.mk i k nm v imm fle anc lp rep ks cs it).keys.isEmpty then
          get_search_options_recursively ks
            (p ++ [Node.mk i k nm v imm fle anc lp rep ks cs it])
        else []) =
        (preorderDescendants
          (p ++ [Node.mk i k nm v imm fle anc lp rep ks cs it]) ks).map
            (fun x => SearchNode.mk x.2.id (compose_command x.1)) := by
      by_cases hk : ks.isEmpty = true
      · have hnil : ks = [] := List.isEmpty_iff.mp hk
        subst hnil
        simp [preorderDescendants, Node.keys]
      · simp only [Node.keys, hk, Bool.not_false, if_pos]
        exact ih1
    simp only [get_search_options_recursively, preorderDescendants,
      List.map_cons, List.map_append, hbranch, ih2, Node.id,
      List.cons_append]

/-- C8: flattening a list of subtree roots yields exactly one
(identity, command) entry per strict descendant of those roots, in
pre-order, with command = compose of the root-to-descendant path. -/
theorem get_search_options_spec : ∀ roots : List Node,
    get_search_options roots = specFlatten roots
  | [] => rfl
  | .mk i k nm v imm fle anc lp rep ks cs it :: rest => by
    have ih := get_search_options_spec rest
    simp only [get_search_options, specFlatten, Node.keys, ih, gsor_eq]

/-!  C9: rendering of search entries. -/

def se1 : SearchNode := ⟨"g", "git"⟩

def se2 : SearchNode := ⟨"gs", "git status"⟩

/-- C9 counterexample: the command is left-ALIGNED (spaces appended on
the right, `{:<w$}`), not left-padded: on [se1, se2] the first rendered
line starts with "git" followed by padding, not with padding followed
by "git". -/
theorem format_left_pad_counterexample :
    format_search_options [se1, se2] =
      ["git          g", "git status   g > s"] ∧
    format_search_options [se1, se2] ≠
      [padLeftStr "git" 10 ++ "   " ++ "g",
       padLeftStr "git status" 10 ++ "   " ++ "g > s"] :=
  ⟨rfl, by decide⟩

/-- C9 amended: for a non-empty entry list there is a width w — the
length of the longest command, attained by some entry — such that every
entry renders as its command left-aligned (right-padded) to width w,
then the three-space separator, then the identity's characters joined
by " > ". -/
theorem format_search_options_spec :
    ∀ nodes : List SearchNode, nodes ≠ [] →
      ∃ w, ((∀ n ∈ nodes, n.command.length ≤ w) ∧
            ∃ n ∈ nodes, n.command.length = w) ∧
        format_search_options nodes =
          nodes.map (fun n =>
            fmtLeftAlign n.command w ++ "   " ++
              String.intercalate " > "
                (n.id.toList.map fun c => String.mk [c])) := by
  intro nodes hne
  cases hm : (nodes.map (fun n => n.command.length)).max? with
  | none =>
    rw [List.max?_eq_none_iff] at hm
    exact absurd (List.map_eq_nil_iff.mp hm) hne
  | some m =>
    obtain ⟨hmem, hall⟩ := List.max?_eq_some_iff'.mp hm
    obtain ⟨n0, hn0, hlen⟩ := List.mem_map.mp hmem
    refine ⟨m, ⟨?_, ⟨n0, hn0, hlen⟩⟩, ?_⟩
    · intro n hn
      exact hall n.command.length (List.mem_map.mpr ⟨n, hn, rfl⟩)
    · unfold format_search_options
      rw [hm]
      simp [format_single_search_option]

/-- Witness for C9's amended theorem at the concrete entry list. -/
theorem format_search_options_spec_witness :
    ([se1, se2] : List SearchNode) ≠ [] ∧
    ∃ w, ((∀ n ∈ ([se1, se2] : List SearchNode), n.command.length ≤ w) ∧
          ∃ n ∈ ([se1, se2] : List SearchNode), n.command.length = w) ∧
      format_search_options [se1, se2] =
        ([se1, se2] : List SearchNode).map (fun n =>
          fmtLeftAlign n.command w ++ "   " ++
            String.intercalate " > "
              (n.id.toList.map fun c => String.mk [c])) :=
  ⟨by simp, format_search_options_spec [se1, se2] (by simp)⟩

/-!  C10: Node::with_selection. -/

/-- C10: with_selection is total; out-of-range indices yield none, and
an in-range index yields a node whose key is the choice sentinel, whose
id is the parent id concatenated with the sentinel, whose name and
value are the chosen string, and which is a leaf. -/
theorem with_selection_spec :
    ∀ (n : Node) (i : Nat),
      (n.choices.length ≤ i → n.with_selection i = none) ∧
      ∀ h : i < n.choices.length,
        ∃ m, n.with_selection i = some m ∧
          m.key = CHOICE_KEY ∧
          m.id = n.id ++ CHOICE_KEY ∧
          m.name = n.choices.get ⟨i, h⟩ ∧
          m.value = n.choices.get ⟨i, h⟩ ∧
          m.is_leaf = true := by
  intro n i
  constructor
  · intro hle
    unfold Node.with_selection
    rw [List.get?_eq_none.mpr hle]
    rfl
  · intro h
    unfold Node.with_selection
    rw [List.get?_eq_get h]
    exact ⟨_, rfl, rfl, id_from_parent_eq n.id CHOICE_KEY, rfl, rfl, rfl⟩

/-- A concrete choice-bearing node, as in the node.rs tests. -/
def chNode : Node :=
  .mk "g" "g" "git" "git" false false false false false []
    ["branch", "commit"] none

/-- Witness for C10 at a concrete node: index 5 is rejected, index 0
yields the synthesized choice node. -/
theorem with_selection_spec_witness :
    (chNode.choices.length ≤ 5 ∧ chNode.with_selection 5 = none) ∧
    (0 < chNode.choices.length ∧
      ∃ m, chNode.with_selection 0 = some m ∧
        m.key = CHOICE_KEY ∧
        m.id = chNode.id ++ CHOICE_KEY ∧
        m.name = chNode.choices.get ⟨0, by decide⟩ ∧
        m.value = chNode.choices.get ⟨0, by decide⟩ ∧
        m.is_leaf = true) :=
  ⟨⟨by decide, (with_selection_spec chNode 5).1 (by decide)⟩,
   ⟨by decide, (with_selection_spec chNode 0).2 (by decide)⟩⟩

end WhichCmd
